import Mathlib

set_option linter.unusedVariables false
set_option maxRecDepth 8000

/-!
Verification of the iovec table `Builder` (methods `Add`, `addByAppend`,
`Build`) of gvisor's unet package.

Go slices are embedded explicitly: a `Slice` is a header `(arr, off, len, cap)`
over a `Mem` mapping array identifiers to byte arrays, with an allocation
frontier `next`.  `append` writes in place when the new length fits the
capacity and otherwise allocates a fresh array, exactly as in Go; this makes
the capacity-truncation step `buf[:n:n]` of `Add` and its aliasing consequences
expressible.  Bytes are modelled as `Nat` (their values are opaque to the
algorithm); Go lengths are non-negative `int` values below 2^63, so the
`uint64(len(buf))` conversion in the source never wraps and `Nat` models the
stored length exactly.
-/

/-- Memory: a map from array identifiers to byte arrays, plus the allocation
frontier `next`; identifiers below `next` are the allocated arrays. -/
structure Mem where
  data : Nat → List Nat
  next : Nat

/-- Overwrite the contents of array `a`. -/
def Mem.write (m : Mem) (a : Nat) (l : List Nat) : Mem :=
  ⟨fun i => if i = a then l else m.data i, m.next⟩

/-- Allocate a fresh array holding `l`; returns the new memory and the id. -/
def Mem.alloc (m : Mem) (l : List Nat) : Mem × Nat :=
  (⟨fun i => if i = m.next then l else m.data i, m.next + 1⟩, m.next)

/-- Mutate one byte of array `a` (the caller writing through its own buffer). -/
def Mem.writeByte (m : Mem) (a i v : Nat) : Mem :=
  m.write a ((m.data a).set i v)

/-- A Go slice header: backing array id, start offset, length, capacity. -/
structure Slice where
  arr : Nat
  off : Nat
  len : Nat
  cap : Nat
  deriving DecidableEq

/-- The zero value of a slice (Go `nil`). -/
def Slice.nilSlice : Slice :=
  ⟨0, 0, 0, 0⟩

/-- The bytes a slice currently denotes. -/
def Slice.bytes (s : Slice) (m : Mem) : List Nat :=
  ((m.data s.arr).drop s.off).take s.len

/-- Well-formedness of a slice header against a memory: the length is within
the capacity and the capacity is within the backing array. -/
def Slice.WF (s : Slice) (m : Mem) : Prop :=
  s.len ≤ s.cap ∧ s.off + s.cap ≤ (m.data s.arr).length

instance (s : Slice) (m : Mem) : Decidable (s.WF m) := by
  unfold Slice.WF
  infer_instance

/-- Go `append` on a byte slice: write in place when the new length fits the
capacity, otherwise allocate a fresh array.  The growth factor of the fresh
capacity is a runtime choice; nothing below depends on more than
`newCap ≥ newLen`. -/
def goAppend (m : Mem) (s : Slice) (v : List Nat) : Mem × Slice :=
  if s.len + v.length ≤ s.cap then
    (m.write s.arr
      (((m.data s.arr).take (s.off + s.len)) ++ v ++
        ((m.data s.arr).drop (s.off + s.len + v.length))),
     ⟨s.arr, s.off, s.len + v.length, s.cap⟩)
  else
    let c := max (s.len + v.length) (2 * s.cap)
    let p := m.alloc (s.bytes m ++ v ++ List.replicate (c - (s.len + v.length)) 0)
    (p.1, ⟨p.2, 0, s.len + v.length, c⟩)

/-- A `syscall.Iovec`: `Base` is a byte address, modelled as an array id and an
index into it; `Len` is the stored length. -/
structure Iovec where
  baseArr : Nat
  baseOff : Nat
  len : Nat
  deriving DecidableEq

/-- The byte range an iovec references. -/
def Iovec.range (iv : Iovec) (m : Mem) : List Nat :=
  ((m.data iv.baseArr).drop iv.baseOff).take iv.len

/-- The descriptor built in the source from a slice: `Base` is the address of
the slice's first byte and `Len` its length. -/
def mkIovec (s : Slice) : Iovec :=
  ⟨s.arr, s.off, s.len⟩

/-- The descriptor-table builder (struct `Builder`).  The fixed `storage`
array of 8 entries backing the initial `iovec` slice, and the `iovec == nil`
check that installs it, are capacity bookkeeping invisible to the table's
contents, so `iovec` is modelled directly as the list of descriptors. -/
structure Builder where
  iovec : List Iovec
  overflow : Slice
  deriving DecidableEq

/-- A freshly constructed builder (the Go zero value: nil table, nil
overflow). -/
def Builder.empty : Builder :=
  ⟨[], Slice.nilSlice⟩

/-- Method `addByAppend`: grow the overflow buffer with the bytes of `buf` and
rewrite the last table entry from the new overflow slice.  Go's indexed store
`w.iovec[i] = x` panics when the index is out of range; the model's `List.set`
is then a no-op, and that access is accounted for by `AddAccessSafe`. -/
def Builder.addByAppend (m : Mem) (w : Builder) (buf : Slice) : Mem × Builder :=
  let p := goAppend m w.overflow (buf.bytes m)
  (p.1, ⟨w.iovec.set (w.iovec.length - 1) (mkIovec p.2), p.2⟩)

/-- Method `Add`, with the package variable `MaxIovs` passed explicitly as
`M`.  A zero-length buffer returns immediately; below `M` entries the buffer's
descriptor is appended, and when the append reaches exactly `M` entries the
buffer is captured as the overflow seed `buf[:n:n]` with its capacity
truncated to its length; at or above `M` entries the buffer is merged via
`addByAppend`. -/
def Builder.Add (M : Nat) (m : Mem) (w : Builder) (buf : Slice) : Mem × Builder :=
  if buf.len = 0 then (m, w)
  else if M ≤ w.iovec.length then Builder.addByAppend m w buf
  else
    let iv := w.iovec ++ [mkIovec buf]
    if iv.length = M then
      (m, ⟨iv, ⟨buf.arr, buf.off, buf.len, buf.len⟩⟩)
    else
      (m, ⟨iv, w.overflow⟩)

/-- Method `Build`: returns the current table. -/
def Builder.Build (w : Builder) : List Iovec :=
  w.iovec

/-- Method `Build` as a state transformer on memory and receiver, making
explicit that the body only reads `w.iovec` and writes nothing. -/
def Builder.buildS (m : Mem) (w : Builder) : Mem × Builder × List Iovec :=
  (m, w, w.iovec)

/-- Run a sequence of `Add` calls. -/
def runAdds (M : Nat) (m : Mem) (w : Builder) : List Slice → Mem × Builder
  | [] => (m, w)
  | b :: bs => runAdds M (Builder.Add M m w b).1 (Builder.Add M m w b).2 bs

/-- The non-empty buffers of a call sequence (`Add` ignores the rest). -/
def nePart (bs : List Slice) : List Slice :=
  bs.filter (fun b => b.len != 0)

/-- Byte-for-byte concatenation of the ranges referenced by a table, in table
order. -/
def tableBytes (m : Mem) (t : List Iovec) : List Nat :=
  (t.map (fun iv => iv.range m)).flatten

/-- Concatenation of every non-empty buffer of a call sequence, in call
order. -/
def inputBytes (m : Mem) (bs : List Slice) : List Nat :=
  ((nePart bs).map (fun b => b.bytes m)).flatten

/-- A caller-supplied buffer: a well-formed slice of an already allocated
array. -/
def callerWF (m : Mem) (b : Slice) : Prop :=
  b.WF m ∧ b.arr < m.next

instance (m : Mem) (b : Slice) : Decidable (callerWF m b) := by
  unfold callerWF
  infer_instance

/-- The index accesses one `Add` call performs, mirroring its control flow:
past the zero-length guard, the merge branch stores through
`w.iovec[len(w.iovec)-1]` (demanding a non-empty table, since Go indices
cannot go below zero) and takes `&w.overflow[0]` of the grown overflow
(demanding it non-empty), while the direct branch takes `&buf[0]` (demanding a
non-empty buffer). -/
def AddAccessSafe (M : Nat) (w : Builder) (buf : Slice) : Prop :=
  buf.len = 0 ∨
    ((M ≤ w.iovec.length → 1 ≤ w.iovec.length ∧ 1 ≤ w.overflow.len + buf.len) ∧
     (w.iovec.length < M → 1 ≤ buf.len))

instance (M : Nat) (w : Builder) (buf : Slice) : Decidable (AddAccessSafe M w buf) := by
  unfold AddAccessSafe
  infer_instance

/-- A concrete memory for instantiations: arrays 1, 2, 3 hold the spec's
example buffers; array 0 is kept empty for the nil slice. -/
def exStore : List (List Nat) :=
  [[], [1, 2], [3, 4, 5], [6, 7, 8, 9]]

/-- The concrete memory built over `exStore`. -/
def exMem : Mem :=
  ⟨fun a => exStore.getD a [], 4⟩

/-- The 2-byte example buffer `[0x01, 0x02]`. -/
def exB1 : Slice := ⟨1, 0, 2, 2⟩

/-- The 3-byte example buffer `[0x03, 0x04, 0x05]`. -/
def exB2 : Slice := ⟨2, 0, 3, 3⟩

/-- The 4-byte example buffer `[0x06, 0x07, 0x08, 0x09]`. -/
def exB3 : Slice := ⟨3, 0, 4, 4⟩

/-- A zero-length buffer (a view of array 1 with length 0). -/
def exB0 : Slice := ⟨1, 0, 0, 2⟩

/-- Setting the final position of a list replaces exactly the last element. -/
theorem set_concat_last {α : Type} (xs : List α) (y y' : α) :
    (xs ++ [y]).set xs.length y' = xs ++ [y'] := by
  induction xs with
  | nil => rfl
  | cons x xs ih => simp [ih]

/-- After setting the last position, `getLast?` returns the new element. -/
theorem getLast?_set_last {α : Type} (xs : List α) (y : α) (h : xs ≠ []) :
    (xs.set (xs.length - 1) y).getLast? = some y := by
  rw [List.getLast?_eq_getElem?, List.length_set]
  have h1 : xs.length - 1 < xs.length := by
    cases xs with
    | nil => exact absurd rfl h
    | cons a l => simp
  simp [List.getElem?_set_self, h1]

/-- Taking exactly the length of the first summand of an append returns it. -/
theorem take_append_exact {α : Type} (l1 l2 : List α) (n : Nat) (h : l1.length = n) :
    (l1 ++ l2).take n = l1 := by
  subst h
  simp

/-- A well-formed slice denotes exactly `len` bytes. -/
theorem Slice.bytes_length (s : Slice) (m : Mem) (h : s.WF m) :
    (s.bytes m).length = s.len := by
  obtain ⟨h1, h2⟩ := h
  simp only [Slice.bytes, List.length_take, List.length_drop]
  omega

/-- The bytes of a slice only depend on the contents of its backing array. -/
theorem Slice.bytes_congr (s : Slice) (m m' : Mem) (h : m'.data s.arr = m.data s.arr) :
    s.bytes m' = s.bytes m := by
  simp [Slice.bytes, h]

/-- An iovec's range only depends on the contents of its base array. -/
theorem Iovec.range_congr (iv : Iovec) (m m' : Mem)
    (h : m'.data iv.baseArr = m.data iv.baseArr) :
    iv.range m' = iv.range m := by
  simp [Iovec.range, h]

/-- The range of the descriptor of a slice is the slice's bytes. -/
theorem range_mkIovec (s : Slice) (m : Mem) : (mkIovec s).range m = s.bytes m :=
  rfl

/-- Everything the development needs about one `append`: the result denotes
the old bytes followed by the appended bytes; its length adds up; it is
well-formed over the new memory and backed by an allocated array; the
allocation frontier does not retreat; arrays other than the one written are
untouched; the result is backed by the old array or by the fresh one; and a
capacity overrun forces the fresh array, leaving every old array untouched. -/
theorem goAppend_spec (m : Mem) (s : Slice) (v : List Nat) (h : s.WF m)
    (hlt : s.arr < m.next) :
    (goAppend m s v).2.bytes (goAppend m s v).1 = s.bytes m ++ v ∧
    (goAppend m s v).2.len = s.len + v.length ∧
    (goAppend m s v).2.WF (goAppend m s v).1 ∧
    (goAppend m s v).2.arr < (goAppend m s v).1.next ∧
    m.next ≤ (goAppend m s v).1.next ∧
    (∀ a, a < m.next → a ≠ s.arr → (goAppend m s v).1.data a = m.data a) ∧
    ((goAppend m s v).2.arr = s.arr ∨ (goAppend m s v).2.arr = m.next) ∧
    (s.cap < s.len + v.length →
      (goAppend m s v).2.arr = m.next ∧
      (∀ a, a < m.next → (goAppend m s v).1.data a = m.data a)) := by
  obtain ⟨hlen, hcap⟩ := h
  by_cases hc : s.len + v.length ≤ s.cap
  · -- in-place growth
    have hres : goAppend m s v =
        (m.write s.arr (((m.data s.arr).take (s.off + s.len)) ++ v ++
          ((m.data s.arr).drop (s.off + s.len + v.length))),
         ⟨s.arr, s.off, s.len + v.length, s.cap⟩) := by
      simp only [goAppend, if_pos hc]
    rw [hres]
    have hdata : (m.write s.arr (((m.data s.arr).take (s.off + s.len)) ++ v ++
        ((m.data s.arr).drop (s.off + s.len + v.length)))).data s.arr
        = ((m.data s.arr).take (s.off + s.len)) ++ v ++
          ((m.data s.arr).drop (s.off + s.len + v.length)) := by
      simp [Mem.write]
    have hframe : ∀ a, a ≠ s.arr →
        (m.write s.arr (((m.data s.arr).take (s.off + s.len)) ++ v ++
          ((m.data s.arr).drop (s.off + s.len + v.length)))).data a = m.data a := by
      intro a hne
      simp [Mem.write, hne]
    have hbytes : Slice.bytes ⟨s.arr, s.off, s.len + v.length, s.cap⟩
        (m.write s.arr (((m.data s.arr).take (s.off + s.len)) ++ v ++
          ((m.data s.arr).drop (s.off + s.len + v.length)))) = s.bytes m ++ v := by
      simp only [Slice.bytes, hdata]
      have hx : ((m.data s.arr).take (s.off + s.len)).length = s.off + s.len := by
        simp only [List.length_take]
        omega
      rw [List.append_assoc, List.drop_append_eq_append_drop, hx]
      have h0 : s.off - (s.off + s.len) = 0 := by omega
      rw [h0, List.drop_zero, List.drop_take]
      have h1 : s.off + s.len - s.off = s.len := by omega
      rw [h1, List.take_append_eq_append_take]
      have h3 : (((m.data s.arr).drop s.off).take s.len).length = s.len := by
        simp only [List.length_take, List.length_drop]
        omega
      rw [List.take_of_length_le (by rw [h3]; omega), h3]
      have h4 : s.len + v.length - s.len = v.length := by omega
      rw [h4, List.take_append_eq_append_take, List.take_of_length_le (le_refl _)]
      have h5 : v.length - v.length = 0 := by omega
      rw [h5, List.take_zero, List.append_nil]
    refine ⟨hbytes, rfl, ⟨hc, ?_⟩, hlt, le_refl _, fun a ha hne => hframe a hne,
      Or.inl rfl, fun hco => absurd hc (by omega)⟩
    rw [hdata]
    simp only [List.length_append, List.length_take, List.length_drop]
    omega
  · -- reallocation
    have hblen : (s.bytes m).length = s.len := by
      simp only [Slice.bytes, List.length_take, List.length_drop]
      omega
    have hres : goAppend m s v =
        (⟨fun i => if i = m.next
            then s.bytes m ++ v ++
              List.replicate (max (s.len + v.length) (2 * s.cap) - (s.len + v.length)) 0
            else m.data i, m.next + 1⟩,
         ⟨m.next, 0, s.len + v.length, max (s.len + v.length) (2 * s.cap)⟩) := by
      simp only [goAppend, if_neg hc, Mem.alloc]
    rw [hres]
    have hdata : (⟨fun i => if i = m.next
        then s.bytes m ++ v ++
          List.replicate (max (s.len + v.length) (2 * s.cap) - (s.len + v.length)) 0
        else m.data i, m.next + 1⟩ : Mem).data m.next
        = s.bytes m ++ v ++
          List.replicate (max (s.len + v.length) (2 * s.cap) - (s.len + v.length)) 0 := by
      simp
    have hframe : ∀ a, a < m.next →
        (⟨fun i => if i = m.next
          then s.bytes m ++ v ++
            List.replicate (max (s.len + v.length) (2 * s.cap) - (s.len + v.length)) 0
          else m.data i, m.next + 1⟩ : Mem).data a = m.data a := by
      intro a ha
      have hne : a ≠ m.next := by omega
      simp [hne]
    have hbytes : Slice.bytes ⟨m.next, 0, s.len + v.length, max (s.len + v.length) (2 * s.cap)⟩
        (⟨fun i => if i = m.next
          then s.bytes m ++ v ++
            List.replicate (max (s.len + v.length) (2 * s.cap) - (s.len + v.length)) 0
          else m.data i, m.next + 1⟩ : Mem) = s.bytes m ++ v := by
      simp only [Slice.bytes, List.drop_zero, eq_self_iff_true, if_true]
      exact take_append_exact _ _ _
        (by simp only [List.length_append, List.length_take, List.length_drop]; omega)
    refine ⟨hbytes, rfl, ⟨le_max_left _ _, ?_⟩, Nat.lt_succ_self m.next, Nat.le_succ m.next,
      fun a ha hne => hframe a ha, Or.inr rfl, fun hco => ⟨rfl, hframe⟩⟩
    show 0 + max (s.len + v.length) (2 * s.cap) ≤
      ((⟨fun i => if i = m.next
          then s.bytes m ++ v ++
            List.replicate (max (s.len + v.length) (2 * s.cap) - (s.len + v.length)) 0
          else m.data i, m.next + 1⟩ : Mem).data m.next).length
    rw [hdata]
    simp only [List.length_append, List.length_replicate, hblen]
    omega

/-- The reachability invariant tying a builder state to the initial memory
`m₀` and the non-empty buffers `ns` added so far: caller arrays are untouched;
the table length is `min (length ns) M`; below saturation the table is exactly
the borrowed descriptors and the overflow is nil; from saturation on, the
table is the first `M - 1` borrowed descriptors followed by the overflow
descriptor, the overflow is well-formed, denotes the concatenation of the
buffers from the `M`-th on, at the saturation point is capacity-truncated and
still aliases the caller array, and after any merge is backed by a
builder-allocated array. -/
def BInv (M : Nat) (m₀ : Mem) (ns : List Slice) (m : Mem) (w : Builder) : Prop :=
  m₀.next ≤ m.next ∧
  (∀ a, a < m₀.next → m.data a = m₀.data a) ∧
  w.iovec.length = min ns.length M ∧
  (ns.length ≤ M → w.iovec = ns.map mkIovec) ∧
  (ns.length < M → w.overflow = Slice.nilSlice) ∧
  (M ≤ ns.length →
    w.iovec = ((ns.take (M - 1)).map mkIovec) ++ [mkIovec w.overflow] ∧
    w.overflow.WF m ∧
    w.overflow.arr < m.next ∧
    w.overflow.bytes m = ((ns.drop (M - 1)).map (fun x => x.bytes m₀)).flatten ∧
    w.overflow.len = (((ns.drop (M - 1)).map (fun x => x.bytes m₀)).flatten).length ∧
    (ns.length = M → w.overflow.cap = w.overflow.len ∧ w.overflow.arr < m₀.next) ∧
    (M < ns.length → m₀.next ≤ w.overflow.arr))

/-- One `Add` call preserves the invariant, extending `ns` by the buffer when
it is non-empty. -/
theorem Add_inv (M : Nat) (hM : 1 ≤ M) (m₀ : Mem) (ns : List Slice) (m : Mem) (w : Builder)
    (b : Slice) (hb : b.len ≠ 0 → callerWF m₀ b)
    (hns : ∀ x ∈ ns, callerWF m₀ x ∧ x.len ≠ 0)
    (hinv : BInv M m₀ ns m w) :
    BInv M m₀ (ns ++ nePart [b]) (Builder.Add M m w b).1 (Builder.Add M m w b).2 := by
  obtain ⟨hnext, hdata, hlength, hA, hnil, hB⟩ := hinv
  by_cases hb0 : b.len = 0
  · -- zero-length buffer: Add is the identity and the buffer is filtered out
    have h1 : nePart [b] = [] := by
      simp [nePart, hb0]
    have h2 : Builder.Add M m w b = (m, w) := by
      simp [Builder.Add, hb0]
    rw [h1, h2, List.append_nil]
    exact ⟨hnext, hdata, hlength, hA, hnil, hB⟩
  · have h1 : nePart [b] = [b] := by
      simp [nePart, hb0]
    obtain ⟨hbWF, hbLt⟩ := hb hb0
    have hblen : (b.bytes m₀).length = b.len := Slice.bytes_length b m₀ hbWF
    rw [h1]
    by_cases hm : M ≤ w.iovec.length
    · -- merge mode
      have hMns : M ≤ ns.length := by omega
      obtain ⟨hiov, hovWF, hovLt, hovBytes, hovLen, hsat, hfresh⟩ := hB hMns
      have hbm : b.bytes m = b.bytes m₀ :=
        Slice.bytes_congr b m₀ m (hdata b.arr hbLt)
      obtain ⟨gB, gL, gWF, gLt, gN, gF, gA, gR⟩ :=
        goAppend_spec m w.overflow (b.bytes m) hovWF hovLt
      have hAdd : Builder.Add M m w b =
          ((goAppend m w.overflow (b.bytes m)).1,
           ⟨w.iovec.set (w.iovec.length - 1)
              (mkIovec (goAppend m w.overflow (b.bytes m)).2),
            (goAppend m w.overflow (b.bytes m)).2⟩) := by
        simp [Builder.Add, hb0, hm, Builder.addByAppend]
      rw [hAdd]
      have hXlen : ((ns.take (M - 1)).map mkIovec).length = M - 1 := by
        simp only [List.length_map, List.length_take]
        omega
      have htake : (ns ++ [b]).take (M - 1) = ns.take (M - 1) := by
        rw [List.take_append_eq_append_take]
        have h2 : M - 1 - ns.length = 0 := by omega
        rw [h2, List.take_zero, List.append_nil]
      have hdrop : (ns ++ [b]).drop (M - 1) = ns.drop (M - 1) ++ [b] := by
        rw [List.drop_append_eq_append_drop]
        have h2 : M - 1 - ns.length = 0 := by omega
        rw [h2, List.drop_zero]
      have hsetfr : ∀ a, a < m₀.next →
          (goAppend m w.overflow (b.bytes m)).1.data a = m₀.data a := by
        intro a ha
        by_cases hcase : ns.length = M
        · -- overflow still capacity-truncated: the append must reallocate
          have hcap : w.overflow.cap < w.overflow.len + (b.bytes m).length := by
            have h3 := (hsat hcase).1
            have h4 : (b.bytes m).length = b.len := by rw [hbm]; exact hblen
            omega
          rw [(gR hcap).2 a (lt_of_lt_of_le ha hnext), hdata a ha]
        · have harr : a ≠ w.overflow.arr := by
            have := hfresh (by omega)
            omega
          rw [gF a (lt_of_lt_of_le ha hnext) harr, hdata a ha]
      refine ⟨le_trans hnext gN, hsetfr, ?_, ?_, ?_, ?_⟩
      · -- table length
        show (w.iovec.set (w.iovec.length - 1)
            (mkIovec (goAppend m w.overflow (b.bytes m)).2)).length
            = min (ns ++ [b]).length M
        rw [List.length_set]
        simp only [List.length_append, List.length_cons, List.length_nil]
        omega
      · intro hcon
        simp only [List.length_append, List.length_cons, List.length_nil] at hcon
        exact absurd hMns (by omega)
      · intro hcon
        simp only [List.length_append, List.length_cons, List.length_nil] at hcon
        exact absurd hMns (by omega)
      · intro hcon
        refine ⟨?_, gWF, gLt, ?_, ?_, ?_, ?_⟩
        · show w.iovec.set (w.iovec.length - 1)
              (mkIovec (goAppend m w.overflow (b.bytes m)).2)
              = (((ns ++ [b]).take (M - 1)).map mkIovec) ++
                [mkIovec (goAppend m w.overflow (b.bytes m)).2]
          rw [htake, hiov]
          have h5 : (((ns.take (M - 1)).map mkIovec) ++ [mkIovec w.overflow]).length - 1
              = ((ns.take (M - 1)).map mkIovec).length := by
            simp only [List.length_append, List.length_cons, List.length_nil]
            omega
          rw [h5, set_concat_last]
        · show (goAppend m w.overflow (b.bytes m)).2.bytes
              (goAppend m w.overflow (b.bytes m)).1
              = (((ns ++ [b]).drop (M - 1)).map (fun x => x.bytes m₀)).flatten
          rw [gB, hovBytes, hbm, hdrop, List.map_append, List.flatten_append]
          simp only [List.map_cons, List.map_nil, List.flatten_cons, List.flatten_nil,
            List.append_nil]
        · show (goAppend m w.overflow (b.bytes m)).2.len
              = ((((ns ++ [b]).drop (M - 1)).map (fun x => x.bytes m₀)).flatten).length
          rw [gL, hovLen, hbm, hdrop, List.map_append, List.flatten_append,
            List.length_append]
          simp only [List.map_cons, List.map_nil, List.flatten_cons, List.flatten_nil,
            List.append_nil, hblen]
        · intro hcon2
          simp only [List.length_append, List.length_cons, List.length_nil] at hcon2
          exact absurd hMns (by omega)
        · intro hcon2
          by_cases hcase : ns.length = M
          · have hcap : w.overflow.cap < w.overflow.len + (b.bytes m).length := by
              have h3 := (hsat hcase).1
              have h4 : (b.bytes m).length = b.len := by rw [hbm]; exact hblen
              omega
            rw [(gR hcap).1]
            exact hnext
          · rcases gA with h | h
            · rw [h]
              exact hfresh (by omega)
            · rw [h]
              exact hnext
    · -- direct mode
      have hnsM : ns.length < M := by omega
      have hiovA := hA (le_of_lt hnsM)
      have hovnil := hnil hnsM
      have hwlen : w.iovec.length = ns.length := by
        rw [hiovA]
        simp
      by_cases hsatn : ns.length + 1 = M
      · -- this append saturates the table
        have hcond : (w.iovec ++ [mkIovec b]).length = M := by
          simp only [List.length_append, List.length_cons, List.length_nil]
          omega
        have hAdd : Builder.Add M m w b =
            (m, ⟨w.iovec ++ [mkIovec b], ⟨b.arr, b.off, b.len, b.len⟩⟩) := by
          simp [Builder.Add, hb0, hm, hcond]
        rw [hAdd]
        have htake2 : (ns ++ [b]).take (M - 1) = ns :=
          take_append_exact ns [b] (M - 1) (by omega)
        have hdrop2 : (ns ++ [b]).drop (M - 1) = [b] := by
          have h9 : M - 1 = ns.length := by omega
          rw [h9, List.drop_left]
        refine ⟨hnext, hdata, ?_, ?_, ?_, ?_⟩
        · show (w.iovec ++ [mkIovec b]).length = min (ns ++ [b]).length M
          rw [hiovA]
          simp only [List.length_append, List.length_map, List.length_cons, List.length_nil]
          omega
        · intro hcon
          show w.iovec ++ [mkIovec b] = (ns ++ [b]).map mkIovec
          rw [hiovA, List.map_append]
          rfl
        · intro hcon
          simp only [List.length_append, List.length_cons, List.length_nil] at hcon
          exact absurd hcon (by omega)
        · intro hcon
          refine ⟨?_, ?_, lt_of_lt_of_le hbLt hnext, ?_, ?_, ?_, ?_⟩
          · show w.iovec ++ [mkIovec b]
                = (((ns ++ [b]).take (M - 1)).map mkIovec) ++ [mkIovec ⟨b.arr, b.off, b.len, b.len⟩]
            rw [htake2, hiovA]
            rfl
          · refine ⟨le_refl _, ?_⟩
            show b.off + b.len ≤ ((m.data b.arr).length)
            rw [hdata b.arr hbLt]
            obtain ⟨h6, h7⟩ := hbWF
            omega
          · show Slice.bytes ⟨b.arr, b.off, b.len, b.len⟩ m
                = (((ns ++ [b]).drop (M - 1)).map (fun x => x.bytes m₀)).flatten
            rw [hdrop2]
            simp only [List.map_cons, List.map_nil, List.flatten_cons, List.flatten_nil,
              List.append_nil]
            show b.bytes m = b.bytes m₀
            exact Slice.bytes_congr b m₀ m (hdata b.arr hbLt)
          · show b.len = ((((ns ++ [b]).drop (M - 1)).map (fun x => x.bytes m₀)).flatten).length
            rw [hdrop2]
            simp only [List.map_cons, List.map_nil, List.flatten_cons, List.flatten_nil,
              List.append_nil]
            exact hblen.symm
          · intro hcon2
            exact ⟨rfl, hbLt⟩
          · intro hcon2
            simp only [List.length_append, List.length_cons, List.length_nil] at hcon2
            exact absurd hcon2 (by omega)
      · -- still below saturation
        have hcond : ¬ (w.iovec.length + 1 = M) := by
          omega
        have hAdd : Builder.Add M m w b =
            (m, ⟨w.iovec ++ [mkIovec b], w.overflow⟩) := by
          simp [Builder.Add, hb0, hm, hcond]
        rw [hAdd]
        refine ⟨hnext, hdata, ?_, ?_, ?_, ?_⟩
        · show (w.iovec ++ [mkIovec b]).length = min (ns ++ [b]).length M
          rw [hiovA]
          simp only [List.length_append, List.length_map, List.length_cons, List.length_nil]
          omega
        · intro hcon
          show w.iovec ++ [mkIovec b] = (ns ++ [b]).map mkIovec
          rw [hiovA, List.map_append]
          rfl
        · intro hcon
          exact hovnil
        · intro hcon
          simp only [List.length_append, List.length_cons, List.length_nil] at hcon
          exact absurd hcon (by omega)

/-- Filtering distributes over the head of a call sequence. -/
theorem nePart_cons (b : Slice) (bs : List Slice) :
    nePart (b :: bs) = nePart [b] ++ nePart bs := by
  by_cases hb0 : b.len = 0
  · simp [nePart, hb0]
  · simp [nePart, hb0]

/-- Any run of `Add` calls preserves the invariant, extending `ns` by the
non-empty buffers of the run. -/
theorem runAdds_inv (M : Nat) (hM : 1 ≤ M) (m₀ : Mem) (bs : List Slice)
    (hwf : ∀ b ∈ bs, b.len ≠ 0 → callerWF m₀ b) :
    ∀ (ns : List Slice) (m : Mem) (w : Builder),
      (∀ x ∈ ns, callerWF m₀ x ∧ x.len ≠ 0) →
      BInv M m₀ ns m w →
      BInv M m₀ (ns ++ nePart bs) (runAdds M m w bs).1 (runAdds M m w bs).2 := by
  induction bs with
  | nil =>
    intro ns m w hns hinv
    simpa [runAdds, nePart] using hinv
  | cons b bs ih =>
    intro ns m w hns hinv
    have hstep := Add_inv M hM m₀ ns m w b (fun hne => hwf b (by simp) hne) hns hinv
    have hns' : ∀ x ∈ ns ++ nePart [b], callerWF m₀ x ∧ x.len ≠ 0 := by
      intro x hx
      rcases List.mem_append.1 hx with hx | hx
      · exact hns x hx
      · have h2 := List.mem_filter.1 hx
        have h3 : x = b := List.mem_singleton.1 h2.1
        have h4 : x.len ≠ 0 := by
          have := h2.2
          simpa using this
        exact ⟨hwf x (by simp [h3]) h4, h4⟩
    have hrec := ih (fun x hx hne => hwf x (by simp [hx]) hne)
      (ns ++ nePart [b]) (Builder.Add M m w b).1 (Builder.Add M m w b).2 hns' hstep
    show BInv M m₀ (ns ++ nePart (b :: bs)) (runAdds M m w (b :: bs)).1
      (runAdds M m w (b :: bs)).2
    rw [nePart_cons, ← List.append_assoc]
    exact hrec

/-- The invariant holds for the empty builder over any memory. -/
theorem BInv_empty (M : Nat) (hM : 1 ≤ M) (m₀ : Mem) :
    BInv M m₀ [] m₀ Builder.empty := by
  refine ⟨le_refl _, fun a ha => rfl, ?_, fun h => rfl, fun h => rfl, ?_⟩
  · simp [Builder.empty]
  · intro h
    simp only [List.length_nil] at h
    exact absurd hM (by omega)

/-- The invariant at the end of any run from a freshly constructed builder. -/
theorem runAdds_inv_empty (M : Nat) (hM : 1 ≤ M) (m₀ : Mem) (bs : List Slice)
    (hwf : ∀ b ∈ bs, b.len ≠ 0 → callerWF m₀ b) :
    BInv M m₀ (nePart bs) (runAdds M m₀ Builder.empty bs).1
      (runAdds M m₀ Builder.empty bs).2 := by
  have h := runAdds_inv M hM m₀ bs hwf [] m₀ Builder.empty (by simp)
    (BInv_empty M hM m₀)
  simpa using h

/-- C1: for every sequence of `Add` calls on a freshly constructed builder
with `MaxIovs ≥ 1`, the byte-for-byte concatenation of the ranges referenced
by the descriptors `Build()` returns, taken in table order, equals the
concatenation of every non-empty buffer passed to `Add`, in call order — both
within and beyond `MaxIovs` non-empty buffers. -/
theorem build_concat_transparent (M : Nat) (m₀ : Mem) (bs : List Slice)
    (hM : 1 ≤ M) (hwf : ∀ b ∈ bs, callerWF m₀ b) :
    tableBytes (runAdds M m₀ Builder.empty bs).1
      (Builder.Build (runAdds M m₀ Builder.empty bs).2)
      = inputBytes m₀ bs := by
  obtain ⟨hnext, hdata, hlength, hA, hnil, hB⟩ :=
    runAdds_inv_empty M hM m₀ bs (fun b hb _ => hwf b hb)
  have hmm : ∀ x ∈ nePart bs,
      x.bytes (runAdds M m₀ Builder.empty bs).1 = x.bytes m₀ := by
    intro x hx
    exact Slice.bytes_congr x m₀ _ (hdata x.arr (hwf x (List.mem_of_mem_filter hx)).2)
  rcases lt_or_le (nePart bs).length M with hc | hc
  · rw [Builder.Build, hA (le_of_lt hc)]
    simp only [tableBytes, List.map_map]
    have hcongr : List.map
        ((fun iv => iv.range (runAdds M m₀ Builder.empty bs).1) ∘ mkIovec) (nePart bs)
        = List.map (fun x => x.bytes m₀) (nePart bs) :=
      List.map_congr_left (fun x hx => hmm x hx)
    rw [hcongr]
    rfl
  · obtain ⟨hiov, hovWF, hovLt, hovBytes, hovLen, hsat, hfresh⟩ := hB hc
    rw [Builder.Build, hiov]
    simp only [tableBytes, List.map_append, List.map_map, List.flatten_append,
      List.map_cons, List.map_nil, List.flatten_cons, List.flatten_nil, List.append_nil]
    have hcongr : List.map
        ((fun iv => iv.range (runAdds M m₀ Builder.empty bs).1) ∘ mkIovec)
        ((nePart bs).take (M - 1))
        = List.map (fun x => x.bytes m₀) ((nePart bs).take (M - 1)) :=
      List.map_congr_left (fun x hx => hmm x (List.mem_of_mem_take hx))
    rw [hcongr]
    have h2 : (mkIovec (runAdds M m₀ Builder.empty bs).2.overflow).range
        (runAdds M m₀ Builder.empty bs).1
        = (((nePart bs).drop (M - 1)).map (fun x => x.bytes m₀)).flatten := hovBytes
    rw [h2, ← List.flatten_append, ← List.map_append, List.take_append_drop]
    rfl

/-- C4: for every sequence whose non-empty buffer count is at most `MaxIovs`,
`Build()` returns exactly one descriptor per non-empty buffer, in call order,
with base the buffer's first-byte address and length the buffer's length. -/
theorem direct_mode_exact (M : Nat) (m₀ : Mem) (bs : List Slice)
    (hM : 1 ≤ M) (hwf : ∀ b ∈ bs, callerWF m₀ b)
    (hcnt : (nePart bs).length ≤ M) :
    Builder.Build (runAdds M m₀ Builder.empty bs).2 = (nePart bs).map mkIovec := by
  obtain ⟨hnext, hdata, hlength, hA, hnil, hB⟩ :=
    runAdds_inv_empty M hM m₀ bs (fun b hb _ => hwf b hb)
  exact hA hcnt

/-- C5: the table length never exceeds `MaxIovs` after any run of `Add`
calls from the empty builder, and when the non-empty buffer count exceeds
`MaxIovs`, `Build()` returns exactly `MaxIovs` descriptors. -/
theorem table_length_bounded (M : Nat) (m₀ : Mem) (bs : List Slice)
    (hM : 1 ≤ M) (hwf : ∀ b ∈ bs, callerWF m₀ b) :
    (runAdds M m₀ Builder.empty bs).2.iovec.length ≤ M ∧
    (M < (nePart bs).length →
      (Builder.Build (runAdds M m₀ Builder.empty bs).2).length = M) := by
  obtain ⟨hnext, hdata, hlength, hA, hnil, hB⟩ :=
    runAdds_inv_empty M hM m₀ bs (fun b hb _ => hwf b hb)
  constructor
  · rw [hlength]
    omega
  · intro h
    show (runAdds M m₀ Builder.empty bs).2.iovec.length = M
    rw [hlength]
    omega

/-- C9: for every builder reachable by `Add` calls from the empty builder
with `MaxIovs ≥ 1`, the overflow buffer is non-empty exactly when the table
holds `MaxIovs` entries, and when it is non-empty the last descriptor's
length equals the overflow buffer's length. -/
theorem overflow_iff_full (M : Nat) (m₀ : Mem) (bs : List Slice)
    (hM : 1 ≤ M) (hwf : ∀ b ∈ bs, callerWF m₀ b) :
    (0 < (runAdds M m₀ Builder.empty bs).2.overflow.len ↔
      (runAdds M m₀ Builder.empty bs).2.iovec.length = M) ∧
    (0 < (runAdds M m₀ Builder.empty bs).2.overflow.len →
      ((runAdds M m₀ Builder.empty bs).2.iovec.getLast?).map Iovec.len
        = some (runAdds M m₀ Builder.empty bs).2.overflow.len) := by
  obtain ⟨hnext, hdata, hlength, hA, hnil, hB⟩ :=
    runAdds_inv_empty M hM m₀ bs (fun b hb _ => hwf b hb)
  rcases lt_or_le (nePart bs).length M with hc | hc
  · have h0 : (runAdds M m₀ Builder.empty bs).2.overflow.len = 0 := by
      rw [hnil hc]
      rfl
    refine ⟨⟨fun hpos => absurd hpos (by omega), fun heq => ?_⟩,
      fun hpos => absurd hpos (by omega)⟩
    rw [hlength] at heq
    omega
  · obtain ⟨hiov, hovWF, hovLt, hovBytes, hovLen, hsat, hfresh⟩ := hB hc
    have hpos : 0 < (runAdds M m₀ Builder.empty bs).2.overflow.len := by
      have hne : (nePart bs).drop (M - 1) ≠ [] := by
        intro hcon
        have h3 : ((nePart bs).drop (M - 1)).length = (nePart bs).length - (M - 1) := by
          simp
        rw [hcon] at h3
        simp only [List.length_nil] at h3
        omega
      obtain ⟨c, t, hct⟩ := List.exists_cons_of_ne_nil hne
      have hcmem : c ∈ nePart bs :=
        List.mem_of_mem_drop (by rw [hct]; exact List.mem_cons_self c t)
      have hclen : c.len ≠ 0 := by
        have h4 := (List.mem_filter.1 hcmem).2
        simpa using h4
      have hcWF : c.WF m₀ := (hwf c (List.mem_of_mem_filter hcmem)).1
      have hcbytes : (c.bytes m₀).length = c.len := Slice.bytes_length c m₀ hcWF
      rw [hovLen, hct]
      simp only [List.map_cons, List.flatten_cons, List.length_append]
      omega
    refine ⟨⟨fun hp => ?_, fun he => hpos⟩, fun hp => ?_⟩
    · rw [hlength]
      omega
    · rw [hiov, List.getLast?_concat]
      rfl

/-- C2: an `Add` that fills the table to exactly `MaxIovs` captures the
buffer as the overflow seed with its capacity truncated to its length
(Go `buf[:n:n]`); consequently, once at least one merge-mode `Add` has
followed saturation, the overflow is backed by a builder-allocated array, and
mutating any caller array — in particular the buffer that triggered
saturation — leaves the bytes referenced by the final descriptor of a
subsequent `Build()` unchanged. -/
theorem saturation_truncation_protects
    (M : Nat) (m : Mem) (w : Builder) (buf : Slice)
    (m₀ : Mem) (bs : List Slice) (a i v : Nat)
    (hM : 1 ≤ M) (hbuf : buf.len ≠ 0) (hsat : w.iovec.length + 1 = M)
    (hwf : ∀ b ∈ bs, callerWF m₀ b) (hcnt : M < (nePart bs).length)
    (ha : a < m₀.next) :
    (Builder.Add M m w buf).2.overflow = ⟨buf.arr, buf.off, buf.len, buf.len⟩ ∧
    m₀.next ≤ (runAdds M m₀ Builder.empty bs).2.overflow.arr ∧
    (Builder.Build (runAdds M m₀ Builder.empty bs).2).getLast?.map
        (fun iv => iv.range (Mem.writeByte (runAdds M m₀ Builder.empty bs).1 a i v))
      = (Builder.Build (runAdds M m₀ Builder.empty bs).2).getLast?.map
        (fun iv => iv.range (runAdds M m₀ Builder.empty bs).1) := by
  obtain ⟨hnext, hdata, hlength, hA, hnil, hB⟩ :=
    runAdds_inv_empty M hM m₀ bs (fun b hb _ => hwf b hb)
  obtain ⟨hiov, hovWF, hovLt, hovBytes, hovLen, hsatc, hfresh⟩ := hB (le_of_lt hcnt)
  have hfr := hfresh hcnt
  refine ⟨?_, hfr, ?_⟩
  · have hm : ¬ M ≤ w.iovec.length := by omega
    simp [Builder.Add, hbuf, hm, hsat]
  · rw [Builder.Build, hiov]
    simp only [List.getLast?_concat]
    show some ((mkIovec (runAdds M m₀ Builder.empty bs).2.overflow).range
        (Mem.writeByte (runAdds M m₀ Builder.empty bs).1 a i v))
      = some ((mkIovec (runAdds M m₀ Builder.empty bs).2.overflow).range
        (runAdds M m₀ Builder.empty bs).1)
    have hne : ¬ ((mkIovec (runAdds M m₀ Builder.empty bs).2.overflow).baseArr = a) := by
      show ¬ ((runAdds M m₀ Builder.empty bs).2.overflow.arr = a)
      omega
    exact congrArg some (Iovec.range_congr _ _ _ (by simp [Mem.writeByte, Mem.write, hne]))

/-- C3: while the table already holds `MaxIovs` entries, a non-empty `Add`
appends a copy of the buffer's bytes onto the overflow buffer and rewrites the
last descriptor to the overflow buffer's current first-byte address and new
total length; and the spec's concrete scenario with `MaxIovs = 2` and buffers
of bytes 1..9 yields the two ranges `[1, 2]` and `[3, 4, 5, 6, 7, 8, 9]`. -/
theorem merge_mode_append (M : Nat) (m : Mem) (w : Builder) (buf : Slice)
    (hM : 1 ≤ M) (hbuf : buf.len ≠ 0) (hfull : w.iovec.length = M)
    (hovWF : w.overflow.WF m) (hovLt : w.overflow.arr < m.next)
    (hbufWF : buf.WF m) :
    (Builder.Add M m w buf).2.overflow.bytes (Builder.Add M m w buf).1
        = w.overflow.bytes m ++ buf.bytes m ∧
    (Builder.Add M m w buf).2.overflow.len = w.overflow.len + buf.len ∧
    (Builder.Add M m w buf).2.iovec.getLast?
        = some (mkIovec (Builder.Add M m w buf).2.overflow) ∧
    (Builder.Add M m w buf).2.iovec.length = w.iovec.length ∧
    (runAdds 2 exMem Builder.empty [exB1, exB2, exB3]).2.Build.map
        (fun iv => iv.range (runAdds 2 exMem Builder.empty [exB1, exB2, exB3]).1)
      = [[1, 2], [3, 4, 5, 6, 7, 8, 9]] := by
  have hm : M ≤ w.iovec.length := le_of_eq hfull.symm
  obtain ⟨gB, gL, gWF, gLt, gN, gF, gA, gR⟩ :=
    goAppend_spec m w.overflow (buf.bytes m) hovWF hovLt
  have hblen : (buf.bytes m).length = buf.len := Slice.bytes_length buf m hbufWF
  have hAdd : Builder.Add M m w buf =
      ((goAppend m w.overflow (buf.bytes m)).1,
       ⟨w.iovec.set (w.iovec.length - 1)
          (mkIovec (goAppend m w.overflow (buf.bytes m)).2),
        (goAppend m w.overflow (buf.bytes m)).2⟩) := by
    simp [Builder.Add, hbuf, hm, Builder.addByAppend]
  rw [hAdd]
  have hnonnil : w.iovec ≠ [] := by
    intro hcon
    rw [hcon] at hfull
    simp only [List.length_nil] at hfull
    omega
  refine ⟨gB, ?_, ?_, ?_, by decide⟩
  · rw [gL, hblen]
  · exact getLast?_set_last w.iovec _ hnonnil
  · show (w.iovec.set (w.iovec.length - 1)
        (mkIovec (goAppend m w.overflow (buf.bytes m)).2)).length = w.iovec.length
    rw [List.length_set]

/-- Any run of `Add` calls that only ever receives zero-length buffers leaves
the memory and the builder untouched. -/
theorem runAdds_all_empty (M : Nat) (bs : List Slice) :
    ∀ (m : Mem), (∀ b ∈ bs, b.len = 0) →
      runAdds M m Builder.empty bs = (m, Builder.empty) := by
  induction bs with
  | nil =>
    intro m h
    rfl
  | cons b bs ih =>
    intro m h
    have h0 : b.len = 0 := h b (by simp)
    have hA : Builder.Add M m Builder.empty b = (m, Builder.empty) := by
      simp [Builder.Add, h0]
    show runAdds M (Builder.Add M m Builder.empty b).1
      (Builder.Add M m Builder.empty b).2 bs = (m, Builder.empty)
    rw [hA]
    exact ih m (fun x hx => h x (by simp [hx]))

/-- C6: a zero-length `Add` is a no-op in every builder state — it changes
neither the memory nor the builder; `Build()` on a fresh builder returns the
empty table, and it still does after any number of zero-length `Add`s. -/
theorem add_empty_noop :
    (∀ (M : Nat) (m : Mem) (w : Builder) (buf : Slice),
      buf.len = 0 → Builder.Add M m w buf = (m, w)) ∧
    Builder.Build Builder.empty = [] ∧
    (∀ (M : Nat) (m : Mem) (bs : List Slice),
      (∀ b ∈ bs, b.len = 0) →
      Builder.Build (runAdds M m Builder.empty bs).2 = []) := by
  refine ⟨?_, rfl, ?_⟩
  · intro M m w buf h
    simp [Builder.Add, h]
  · intro M m bs h
    rw [runAdds_all_empty M bs m h]
    rfl

/-- C7: `Build` has no side effect on the memory or the builder, and two
consecutive `Build` calls with no intervening `Add` return the same table. -/
theorem build_no_side_effects (m : Mem) (w : Builder) :
    Builder.buildS m w = (m, w, Builder.Build w) ∧
    (Builder.buildS (Builder.buildS m w).1 (Builder.buildS m w).2.1).2.2
      = (Builder.buildS m w).2.2 :=
  ⟨rfl, rfl⟩

/-- C8: with `MaxIovs ≥ 1` every `Add` call's index accesses are in bounds in
every builder state (hence in every reachable one), while with `MaxIovs = 0`
the first non-empty `Add` on the empty builder would index position `-1` of
an empty table. -/
theorem add_access_safe :
    (∀ (M : Nat) (w : Builder) (buf : Slice), 1 ≤ M → AddAccessSafe M w buf) ∧
    ¬ AddAccessSafe 0 Builder.empty exB1 := by
  constructor
  · intro M w buf hM
    by_cases h0 : buf.len = 0
    · exact Or.inl h0
    · exact Or.inr ⟨fun hm => ⟨by omega, by omega⟩, fun hlt => by omega⟩
  · decide

/-- Running a concatenated sequence of `Add` calls equals running the two
parts in succession. -/
theorem runAdds_append (M : Nat) (m : Mem) (w : Builder) (s1 s2 : List Slice) :
    runAdds M m w (s1 ++ s2)
      = runAdds M (runAdds M m w s1).1 (runAdds M m w s1).2 s2 := by
  induction s1 generalizing m w with
  | nil => rfl
  | cons b bs ih =>
    show runAdds M (Builder.Add M m w b).1 (Builder.Add M m w b).2 (bs ++ s2) = _
    rw [ih]
    rfl

/-- C10: `Add` after `Build` is permitted and unaffected by the `Build`:
interposing a `Build` call between two `Add` sequences yields the same final
table as running all the `Add`s and building once — `Build` does not freeze
the builder. -/
theorem build_does_not_freeze (M : Nat) (m : Mem) (w : Builder) (s1 s2 : List Slice) :
    Builder.Build (runAdds M
        (Builder.buildS (runAdds M m w s1).1 (runAdds M m w s1).2).1
        (Builder.buildS (runAdds M m w s1).1 (runAdds M m w s1).2).2.1 s2).2
      = Builder.Build (runAdds M m w (s1 ++ s2)).2 := by
  rw [runAdds_append]
  rfl


/-- The builder state one `Add` before saturation in the example: one entry in
the table, nil overflow. -/
def exW2 : Builder :=
  ⟨[mkIovec exB1], Slice.nilSlice⟩

/-- The saturated builder state of the example with `MaxIovs = 2`: two
entries, overflow seeded with the second buffer, capacity truncated. -/
def exW3 : Builder :=
  ⟨[mkIovec exB1, mkIovec exB2], ⟨2, 0, 3, 3⟩⟩

/-- Witness for C1 at `MaxIovs = 2` with the three example buffers: the table
bytes are the concatenation 1..9 of the inputs. -/
theorem build_concat_transparent_witness :
    tableBytes (runAdds 2 exMem Builder.empty [exB1, exB2, exB3]).1
      (Builder.Build (runAdds 2 exMem Builder.empty [exB1, exB2, exB3]).2)
      = [1, 2, 3, 4, 5, 6, 7, 8, 9] :=
  (build_concat_transparent 2 exMem [exB1, exB2, exB3] (by decide) (by decide)).trans
    (by decide)

/-- Witness for C2: the saturating `Add` of the second example buffer
truncates the overflow seed's capacity, and after the example run the
overflow is builder-allocated and a caller-side write to array 2 does not
change the final descriptor's range. -/
theorem saturation_truncation_protects_witness :
    (Builder.Add 2 exMem exW2 exB2).2.overflow
        = ⟨exB2.arr, exB2.off, exB2.len, exB2.len⟩ ∧
    exMem.next ≤ (runAdds 2 exMem Builder.empty [exB1, exB2, exB3]).2.overflow.arr ∧
    (Builder.Build (runAdds 2 exMem Builder.empty [exB1, exB2, exB3]).2).getLast?.map
        (fun iv => iv.range
          (Mem.writeByte (runAdds 2 exMem Builder.empty [exB1, exB2, exB3]).1 2 0 99))
      = (Builder.Build (runAdds 2 exMem Builder.empty [exB1, exB2, exB3]).2).getLast?.map
        (fun iv => iv.range (runAdds 2 exMem Builder.empty [exB1, exB2, exB3]).1) :=
  saturation_truncation_protects 2 exMem exW2 exB2 exMem [exB1, exB2, exB3] 2 0 99
    (by decide) (by decide) (by decide) (by decide) (by decide) (by decide)

/-- Witness for C3: merging the third example buffer into the saturated state
appends its bytes to the overflow and rewrites the last descriptor. -/
theorem merge_mode_append_witness :
    (Builder.Add 2 exMem exW3 exB3).2.overflow.bytes (Builder.Add 2 exMem exW3 exB3).1
        = exW3.overflow.bytes exMem ++ exB3.bytes exMem ∧
    (Builder.Add 2 exMem exW3 exB3).2.overflow.len = exW3.overflow.len + exB3.len ∧
    (Builder.Add 2 exMem exW3 exB3).2.iovec.getLast?
        = some (mkIovec (Builder.Add 2 exMem exW3 exB3).2.overflow) ∧
    (Builder.Add 2 exMem exW3 exB3).2.iovec.length = exW3.iovec.length ∧
    (runAdds 2 exMem Builder.empty [exB1, exB2, exB3]).2.Build.map
        (fun iv => iv.range (runAdds 2 exMem Builder.empty [exB1, exB2, exB3]).1)
      = [[1, 2], [3, 4, 5, 6, 7, 8, 9]] :=
  merge_mode_append 2 exMem exW3 exB3 (by decide) (by decide) (by decide) (by decide)
    (by decide) (by decide)

/-- Witness for C4 at the spec's second scenario: `MaxIovs = 8`, one 2-byte
buffer and one zero-length buffer give exactly one descriptor of length 2. -/
theorem direct_mode_exact_witness :
    Builder.Build (runAdds 8 exMem Builder.empty [exB1, exB0]).2 = [⟨1, 0, 2⟩] :=
  (direct_mode_exact 8 exMem [exB1, exB0] (by decide) (by decide) (by decide)).trans
    (by decide)

/-- Witness for C5: with `MaxIovs = 2` and three non-empty buffers the bound
holds and the built table has exactly 2 entries. -/
theorem table_length_bounded_witness :
    (runAdds 2 exMem Builder.empty [exB1, exB2, exB3]).2.iovec.length ≤ 2 ∧
    (2 < (nePart [exB1, exB2, exB3]).length →
      (Builder.Build (runAdds 2 exMem Builder.empty [exB1, exB2, exB3]).2).length = 2) :=
  table_length_bounded 2 exMem [exB1, exB2, exB3] (by decide) (by decide)

/-- Witness for C6: a zero-length `Add` changes nothing, and two zero-length
`Add`s still build the empty table. -/
theorem add_empty_noop_witness :
    Builder.Add 8 exMem Builder.empty exB0 = (exMem, Builder.empty) ∧
    Builder.Build (runAdds 8 exMem Builder.empty [exB0, exB0]).2 = [] :=
  ⟨add_empty_noop.1 8 exMem Builder.empty exB0 rfl,
   add_empty_noop.2.2 8 exMem [exB0, exB0] (by decide)⟩

/-- Witness for C8: with `MaxIovs = 2` the first non-empty `Add` on the empty
builder is access-safe. -/
theorem add_access_safe_witness : AddAccessSafe 2 Builder.empty exB1 :=
  add_access_safe.1 2 Builder.empty exB1 (by decide)

/-- Witness for C9: after the example run, the overflow is non-empty exactly
because the table is full, and the last descriptor length matches it. -/
theorem overflow_iff_full_witness :
    (0 < (runAdds 2 exMem Builder.empty [exB1, exB2, exB3]).2.overflow.len ↔
      (runAdds 2 exMem Builder.empty [exB1, exB2, exB3]).2.iovec.length = 2) ∧
    (0 < (runAdds 2 exMem Builder.empty [exB1, exB2, exB3]).2.overflow.len →
      ((runAdds 2 exMem Builder.empty [exB1, exB2, exB3]).2.iovec.getLast?).map Iovec.len
        = some (runAdds 2 exMem Builder.empty [exB1, exB2, exB3]).2.overflow.len) :=
  overflow_iff_full 2 exMem [exB1, exB2, exB3] (by decide) (by decide)
